/-
  Verification of the arteri-sensors PPG processing pipeline.

  Shallow embedding of the core signal pipeline implemented in
  `pwv_script.py`, `script.py` and `lucy_ppg_script/ppg_live.py`:
  moving-average conditioning (numpy `convolve` in `valid` mode with a
  uniform kernel), peak detection (scipy `find_peaks` restricted to the
  `height` and `distance` arguments actually used), diastolic foot
  detection, positional transit-time pairing, velocity estimation, and
  the serial-collection state machine.

  Real numbers of the Python code (numpy float64) are idealised as ℚ;
  timestamps and raw sensor readings are integers in the source
  (parsed with Python `int`) and are embedded as ℤ.  Fallible code
  paths (numpy raising on an empty convolution input, float division
  by zero) are embedded with `Option` / an explicit `Outcome` type.
-/
import Mathlib

namespace Arteri

/-- Value of a rational sequence at an index, 0 out of range.  All uses in
the development access in-range indices only. -/
def val (x : List ℚ) (i : Nat) : ℚ := x.getD i 0

/-- `numpy.mean`: arithmetic mean of the whole sequence. -/
def mean (x : List ℚ) : ℚ := x.sum / x.length

/-- The uniform kernel `numpy.ones(w)/w` used by both scripts, as a function
on signed offsets: entry `m` is `1/w` for `0 ≤ m < w`, and 0 outside. -/
def kernelAt (w : Nat) (m : Int) : ℚ := if 0 ≤ m ∧ m < w then 1 / w else 0

/-- Entry `k` of the full discrete convolution `numpy.convolve(a, ones(w)/w)`:
`c[k] = Σ_j a[j] · v[k − j]`. -/
def fullConv (a : List ℚ) (w : Nat) (k : Nat) : ℚ :=
  ((List.range a.length).map fun j => a.getD j 0 * kernelAt w ((k : Int) - j)).sum

/-- `numpy.convolve(a, ones(w)/w, mode='valid')`: the slice of the full
convolution where the two sequences fully overlap, of length
`max(n,w) − min(n,w) + 1` starting at entry `min(n,w) − 1`.  `numpy`
raises `ValueError` on an empty input, embedded as `none`. -/
def convolveValid (a : List ℚ) (w : Nat) : Option (List ℚ) :=
  if a.length = 0 ∨ w = 0 then none
  else if w ≤ a.length then
    some ((List.range (a.length - w + 1)).map fun i => fullConv a w (w - 1 + i))
  else
    some ((List.range (w - a.length + 1)).map fun i => fullConv a w (a.length - 1 + i))

/-- `timestamps[window_size-1:]` — the conditioned timestamp sequence. -/
def conditionTimestamps (ts : List ℤ) (w : Nat) : List ℤ := ts.drop (w - 1)

/-- Arithmetic mean of the `w` raw samples starting at index `i`
(specification-side description of one moving-average output). -/
def windowMean (x : List ℚ) (i w : Nat) : ℚ :=
  ((List.range w).map fun t => x.getD (i + t) 0).sum / w

/-
  Peak detection: shallow embedding of `scipy.signal.find_peaks` restricted
  to the arguments used by the repository (`height` and, for the systolic
  detector only, `distance`).  The plateau-aware local-maximum scan models
  scipy's `_local_maxima_1d`; the distance filter models
  `_select_by_peak_distance` (iterate over peaks from highest to lowest
  value, keeping a boolean mask and clearing neighbours closer than
  `distance` on each side).
-/

/-- Scan forward from `j` while the value stays equal to `v`; the fuel
argument bounds the scan (callers pass `imax - j`, so the scan stops at
`imax`).  Models the inner plateau loop of `_local_maxima_1d`. -/
def plateauEndAux (x : List ℚ) (v : ℚ) : Nat → Nat → Nat
  | 0, j => j
  | c + 1, j => if val x j = v then plateauEndAux x v c (j + 1) else j

/-- First index `≥ j` that is `imax` or carries a value different from `v`. -/
def plateauEnd (x : List ℚ) (v : ℚ) (imax j : Nat) : Nat :=
  plateauEndAux x v (imax - j) j

/-- Main scan of `_local_maxima_1d`: walk `i` from 1 towards `imax = n − 1`;
on a strict rise followed by a plateau and a strict fall, record the plateau
midpoint and resume after the plateau.  The fuel argument makes the
recursion structural; callers pass fuel `≥ imax`, which suffices since `i`
strictly increases each step. -/
def localMaxAux (x : List ℚ) (imax : Nat) : Nat → Nat → List Nat
  | 0, _ => []
  | fuel + 1, i =>
    if i < imax then
      if val x (i - 1) < val x i then
        if val x (plateauEnd x (val x i) imax (i + 1)) < val x i then
          (i + (plateauEnd x (val x i) imax (i + 1) - 1)) / 2
            :: localMaxAux x imax fuel (plateauEnd x (val x i) imax (i + 1) + 1)
        else localMaxAux x imax fuel (i + 1)
      else localMaxAux x imax fuel (i + 1)
    else []

/-- All plateau midpoints of interior local maxima, in increasing order
(scipy `_local_maxima_1d`). -/
def localMaxima (x : List ℚ) : List Nat :=
  localMaxAux x (x.length - 1) x.length 1

/-- `find_peaks(x, height=h)`: local maxima whose value is at least `h`
(scipy keeps peaks with `hmin ≤ x[peak]`). -/
def find_peaks_h (x : List ℚ) (h : ℚ) : List Nat :=
  (localMaxima x).filter fun m => decide (h ≤ val x m)

/-- `numpy.argsort` of the peak values: indices into `vs` ordered by
ascending value (ties by position, a legal ordering since `numpy`'s default
sort leaves tie order unspecified). -/
def argsortQ (vs : List ℚ) : List Nat :=
  (List.range vs.length).insertionSort fun a b =>
    vs.getD a 0 < vs.getD b 0 ∨ (vs.getD a 0 = vs.getD b 0 ∧ a ≤ b)

/-- Left sweep of `_select_by_peak_distance`: clear the mask at `k = c − 1,
c − 2, …` while the current peak position `pj` is closer than `d` to
`pk[k]`; `c = 0` encodes Python's `k = −1`.  Callers pass `c = j`. -/
def suppressLeft (pk : List Nat) (d : Nat) (pj : Nat) : Nat → List Bool → List Bool
  | 0, keep => keep
  | c + 1, keep =>
    if (pj : Int) - (pk.getD c 0 : Int) < (d : Int) then
      suppressLeft pk d pj c (keep.set c false)
    else keep

/-- Right sweep of `_select_by_peak_distance`: clear the mask at
`k, k + 1, …` while `pk[k]` is closer than `d` to `pj`; the first argument
counts the remaining entries (callers pass `pk.length − k`). -/
def suppressRight (pk : List Nat) (d : Nat) (pj : Nat) : Nat → Nat → List Bool → List Bool
  | 0, _, keep => keep
  | rem + 1, k, keep =>
    if (pk.getD k 0 : Int) - (pj : Int) < (d : Int) then
      suppressRight pk d pj rem (k + 1) (keep.set k false)
    else keep

/-- Main loop of `_select_by_peak_distance`: process peak indices in the
given priority order; a peak still kept clears all neighbours closer than
`d` on both sides. -/
def distanceLoop (pk : List Nat) (d : Nat) : List Nat → List Bool → List Bool
  | [], keep => keep
  | j :: rest, keep =>
    if keep.getD j false = true then
      distanceLoop pk d rest
        (suppressRight pk d (pk.getD j 0) (pk.length - (j + 1)) (j + 1)
          (suppressLeft pk d (pk.getD j 0) j keep))
    else distanceLoop pk d rest keep

/-- `_select_by_peak_distance(peaks, priority, distance)`: the final keep
mask, processing peaks from highest to lowest priority value. -/
def selectByPeakDistance (pk : List Nat) (vs : List ℚ) (d : Nat) : List Bool :=
  distanceLoop pk d (argsortQ vs).reverse (List.replicate pk.length true)

/-- Boolean-mask indexing `peaks[keep]`. -/
def maskSelect : List Nat → List Bool → List Nat
  | p :: ps, b :: bs => if b then p :: maskSelect ps bs else maskSelect ps bs
  | _, _ => []

/-- `find_peaks(x, height=h, distance=d)`: local maxima, filtered by height
first and by minimal peak distance second (scipy's evaluation order). -/
def find_peaks (x : List ℚ) (h : ℚ) (d : Nat) : List Nat :=
  maskSelect (find_peaks_h x h)
    (selectByPeakDistance (find_peaks_h x h)
      ((find_peaks_h x h).map fun p => val x p) d)

/-- The repository's systolic peak detector:
`find_peaks(filtered, height=np.mean(filtered), distance=30)`. -/
def peakDetect (x : List ℚ) : List Nat := find_peaks x (mean x) 30

/-- `m` is an interior (plateau) local maximum of `x`: some maximal run
`[l, r]` of equal values containing `m` rises strictly from the left and
falls strictly to the right, away from both boundaries. -/
def IsLocalMax (x : List ℚ) (m : Nat) : Prop :=
  ∃ l r, 1 ≤ l ∧ l ≤ m ∧ m ≤ r ∧ r + 2 ≤ x.length ∧
    val x (l - 1) < val x m ∧ (∀ k, l ≤ k → k ≤ r → val x k = val x m) ∧
    val x (r + 1) < val x m

/-- Foot (diastolic-peak) search for one systolic peak `p`
(`pwv_script.process_csv_file`, the two per-channel loops): search
`filtered[p+10 : min(p+100, n−1)]` for local maxima of height at least
`0.3 · filtered[p]` and return the first one, offset back to absolute
indices; skip the peak when the subrange is empty or no candidate exists. -/
def footForPeak (x : List ℚ) (p : Nat) : Option Nat :=
  if min (p + 100) (x.length - 1) ≤ p + 10 then none
  else
    match find_peaks_h
        ((x.drop (p + 10)).take (min (p + 100) (x.length - 1) - (p + 10)))
        (3 / 10 * val x p) with
    | [] => none
    | c :: _ => some (p + 10 + c)

/-- All feet found for a peak set, in order (peaks without a foot are
skipped). -/
def footDetector (x : List ℚ) (peaks : List Nat) : List Nat :=
  peaks.filterMap (footForPeak x)

/-- `pwv_script.calculate_ptt`: loop over paired positions, appending the
signed timestamp difference whenever it lies strictly inside (0, 300) ms. -/
def calculate_ptt (ts : List ℤ) (i1 i2 : List Nat) : List ℤ :=
  (List.range (min i1.length i2.length)).foldl
    (fun acc i =>
      if 0 < ts.getD (i2.getD i 0) 0 - ts.getD (i1.getD i 0) 0 ∧
          ts.getD (i2.getD i 0) 0 - ts.getD (i1.getD i 0) 0 < 300 then
        acc ++ [ts.getD (i2.getD i 0) 0 - ts.getD (i1.getD i 0) 0]
      else acc) []

/-- The PTT loop of `script.PTTCalculator.process_data`: identical except
the difference is passed through `abs` before the plausibility test. -/
def calculate_ptt_abs (ts : List ℤ) (i1 i2 : List Nat) : List ℤ :=
  (List.range (min i1.length i2.length)).foldl
    (fun acc i =>
      if 0 < |ts.getD (i2.getD i 0) 0 - ts.getD (i1.getD i 0) 0| ∧
          |ts.getD (i2.getD i 0) 0 - ts.getD (i1.getD i 0) 0| < 300 then
        acc ++ [|ts.getD (i2.getD i 0) 0 - ts.getD (i1.getD i 0) 0|]
      else acc) []

/-- Specification-side form of the Transit-Time Estimator: positional
differences for `i ∈ [0, min(len1, len2))`, filtered to `(0, 300)`. -/
def transitSpec (ts : List ℤ) (i1 i2 : List Nat) : List ℤ :=
  ((List.range (min i1.length i2.length)).map
      fun i => ts.getD (i2.getD i 0) 0 - ts.getD (i1.getD i 0) 0).filter
    fun v => decide (0 < v) && decide (v < 300)

/-- Velocity Estimator (`pwv_script.process_csv_file`): when the distance is
positive, one velocity `(d/100) / (t/1000)` per transit time; Python float
division raises `ZeroDivisionError` on a zero transit time, embedded as
`none`; a non-positive distance leaves the velocity list empty. -/
def computePwv (ptt : List ℤ) (d : ℚ) : Option (List ℚ) :=
  if 0 < d then
    ptt.mapM fun t : ℤ =>
      if ((t : ℚ) / 1000) = 0 then none else some ((d / 100) / ((t : ℚ) / 1000))
  else some []

/-- Result of running a pipeline entry point: a value, an early return
before any stage ran (`script.process_data`'s not-enough-data guard), or an
uncaught Python exception. -/
inductive Outcome (α : Type) where
  | ok : α → Outcome α
  | skipped : Outcome α
  | raised : Outcome α
deriving DecidableEq

/-- `script.PTTCalculator.process_data`: guard on fewer than 50 samples,
then condition both channels, detect peaks, and run the absolute-difference
PTT loop (only when both peak sets are non-empty). -/
def process_data (ts : List ℤ) (p1 p2 : List ℤ) : Outcome (List ℤ) :=
  if p1.length < 50 ∨ p2.length < 50 then .skipped
  else
    match convolveValid (p1.map fun v => (v : ℚ)) 5,
        convolveValid (p2.map fun v => (v : ℚ)) 5 with
    | some f1, some f2 =>
      if 0 < (peakDetect f1).length ∧ 0 < (peakDetect f2).length then
        .ok (calculate_ptt_abs (conditionTimestamps ts 5) (peakDetect f1) (peakDetect f2))
      else .ok []
    | _, _ => .raised

/-- The computational core of `pwv_script.process_csv_file`: condition both
channels (no length guard — `numpy` raises on an empty session), detect
systolic peaks and diastolic feet, pair both feature kinds, and derive
velocities. -/
def process_csv_core (ts : List ℤ) (p1 p2 : List ℚ) (d : ℚ) :
    Outcome (List ℤ × List ℤ × List ℚ × List ℚ) :=
  match convolveValid p1 5, convolveValid p2 5 with
  | some f1, some f2 =>
    match computePwv (calculate_ptt (conditionTimestamps ts 5) (peakDetect f1) (peakDetect f2)) d,
        computePwv (calculate_ptt (conditionTimestamps ts 5)
          (footDetector f1 (peakDetect f1)) (footDetector f2 (peakDetect f2))) d with
    | some pwvS, some pwvD =>
      .ok (calculate_ptt (conditionTimestamps ts 5) (peakDetect f1) (peakDetect f2),
        calculate_ptt (conditionTimestamps ts 5)
          (footDetector f1 (peakDetect f1)) (footDetector f2 (peakDetect f2)),
        pwvS, pwvD)
    | _, _ => .raised
  | _, _ => .raised

/-- One comma-separated field of a serial line: an integer-parsable token or
a malformed one (`int()` raising `ValueError`). -/
inductive FieldTok where
  | num : ℤ → FieldTok
  | bad : FieldTok
deriving DecidableEq

/-- One serial line, as classified by `collect_data`: a start sentinel, an
end sentinel, or any other line given by its comma-split fields. -/
inductive Line where
  | start : Line
  | stop : Line
  | data : List FieldTok → Line
deriving DecidableEq

/-- `timestamp, ppg1, ppg2 = map(int, parts)` guarded by
`len(parts) == 3`: succeeds only on exactly three numeric fields, and all
three parses complete before any buffer is touched. -/
def parse3 : List FieldTok → Option (ℤ × ℤ × ℤ)
  | [FieldTok.num a, FieldTok.num b, FieldTok.num c] => some (a, b, c)
  | _ => none

/-- The mutable state of `script.PTTCalculator` used by the collection
loop: the collecting flag, the three per-session buffers, and the log of
processing outcomes triggered by end sentinels. -/
structure CollectorState where
  is_collecting : Bool
  timestamps : List ℤ
  ppg1_data : List ℤ
  ppg2_data : List ℤ
  results : List (Outcome (List ℤ))
deriving DecidableEq

/-- One iteration of `script.PTTCalculator.collect_data` on a received
line. -/
def collectStep (s : CollectorState) (l : Line) : CollectorState :=
  match l with
  | Line.start =>
    { is_collecting := true
      timestamps := []
      ppg1_data := []
      ppg2_data := []
      results := s.results }
  | Line.stop =>
    { s with
      is_collecting := false
      results := s.results ++ [process_data s.timestamps s.ppg1_data s.ppg2_data] }
  | Line.data fs =>
    if s.is_collecting then
      match parse3 fs with
      | some (t, a, b) =>
        { s with
          timestamps := s.timestamps ++ [t]
          ppg1_data := s.ppg1_data ++ [a]
          ppg2_data := s.ppg2_data ++ [b] }
      | none => s
    else s

/-- The shared buffers of `ppg_live.read_serial_data`: three value lists
plus the rows written to the CSV file. -/
structure LiveState where
  timestamps : List ℤ
  sensor1_values : List ℤ
  sensor2_values : List ℤ
  csvRows : List (ℤ × ℤ × ℤ)
deriving DecidableEq

/-- One iteration of the `ppg_live.read_serial_data` loop on the fields of
a received line: parse all three integers, then append to the three lists
and the CSV; a parse failure leaves everything untouched. -/
def readSerialStep (s : LiveState) (fs : List FieldTok) : LiveState :=
  match parse3 fs with
  | some (t, a, b) =>
    { timestamps := s.timestamps ++ [t]
      sensor1_values := s.sensor1_values ++ [a]
      sensor2_values := s.sensor2_values ++ [b]
      csvRows := s.csvRows ++ [(t, a, b)] }
  | none => s

theorem peAux_ge (x : List ℚ) (v : ℚ) :
    ∀ c j, j ≤ plateauEndAux x v c j := by
  intro c
  induction c with
  | zero => intro j; simp [plateauEndAux]
  | succ c ih =>
    intro j
    unfold plateauEndAux
    split
    · exact le_trans (Nat.le_succ j) (ih (j + 1))
    · exact le_refl j

theorem peAux_le (x : List ℚ) (v : ℚ) :
    ∀ c j, plateauEndAux x v c j ≤ j + c := by
  intro c
  induction c with
  | zero => intro j; simp [plateauEndAux]
  | succ c ih =>
    intro j
    unfold plateauEndAux
    split
    · exact le_trans (ih (j + 1)) (by omega)
    · omega

theorem peAux_plateau (x : List ℚ) (v : ℚ) :
    ∀ c j k, j ≤ k → k < plateauEndAux x v c j → val x k = v := by
  intro c
  induction c with
  | zero =>
    intro j k hjk hk
    simp only [plateauEndAux] at hk
    omega
  | succ c ih =>
    intro j k hjk hk
    unfold plateauEndAux at hk
    split at hk
    · rcases Nat.eq_or_lt_of_le hjk with rfl | hlt
      · assumption
      · exact ih (j + 1) k hlt hk
    · omega

theorem plateauEnd_ge (x : List ℚ) (v : ℚ) (imax j : Nat) :
    j ≤ plateauEnd x v imax j :=
  peAux_ge x v (imax - j) j

theorem plateauEnd_le (x : List ℚ) (v : ℚ) (imax j : Nat) (h : j ≤ imax) :
    plateauEnd x v imax j ≤ imax := by
  have := peAux_le x v (imax - j) j
  unfold plateauEnd
  omega

theorem plateauEnd_plateau (x : List ℚ) (v : ℚ) (imax j k : Nat)
    (hjk : j ≤ k) (hk : k < plateauEnd x v imax j) : val x k = v :=
  peAux_plateau x v (imax - j) j k hjk hk

theorem lmAux_bounds (x : List ℚ) (imax : Nat) :
    ∀ fuel i, ∀ m ∈ localMaxAux x imax fuel i, i ≤ m ∧ m + 1 ≤ imax := by
  intro fuel
  induction fuel with
  | zero => intro i m hm; simp [localMaxAux] at hm
  | succ fuel ih =>
    intro i m hm
    unfold localMaxAux at hm
    by_cases hi : i < imax
    · rw [if_pos hi] at hm
      by_cases hrise : val x (i - 1) < val x i
      · rw [if_pos hrise] at hm
        have hge := plateauEnd_ge x (val x i) imax (i + 1)
        have hle := plateauEnd_le x (val x i) imax (i + 1) (by omega)
        by_cases hfall : val x (plateauEnd x (val x i) imax (i + 1)) < val x i
        · rw [if_pos hfall] at hm
          rcases List.mem_cons.mp hm with rfl | hm'
          · constructor <;> omega
          · have := ih _ m hm'
            constructor <;> omega
        · rw [if_neg hfall] at hm
          have := ih _ m hm
          constructor <;> omega
      · rw [if_neg hrise] at hm
        have := ih _ m hm
        constructor <;> omega
    · rw [if_neg hi] at hm
      simp at hm

theorem lmAux_sorted (x : List ℚ) (imax : Nat) :
    ∀ fuel i, List.Pairwise (fun a b => a < b) (localMaxAux x imax fuel i) := by
  intro fuel
  induction fuel with
  | zero => intro i; simp [localMaxAux]
  | succ fuel ih =>
    intro i
    unfold localMaxAux
    by_cases hi : i < imax
    · rw [if_pos hi]
      by_cases hrise : val x (i - 1) < val x i
      · rw [if_pos hrise]
        have hge := plateauEnd_ge x (val x i) imax (i + 1)
        by_cases hfall : val x (plateauEnd x (val x i) imax (i + 1)) < val x i
        · rw [if_pos hfall]
          refine List.pairwise_cons.mpr ⟨?_, ih _⟩
          intro m hm
          have := (lmAux_bounds x imax fuel _ m hm).1
          omega
        · rw [if_neg hfall]
          exact ih _
      · rw [if_neg hrise]
        exact ih _
    · rw [if_neg hi]
      exact List.Pairwise.nil

theorem lmAux_localmax (x : List ℚ) (imax : Nat) :
    ∀ fuel i, 1 ≤ i → ∀ m ∈ localMaxAux x imax fuel i,
      ∃ l r, 1 ≤ l ∧ l ≤ m ∧ m ≤ r ∧ r + 1 ≤ imax ∧
        val x (l - 1) < val x l ∧ (∀ k, l ≤ k → k ≤ r → val x k = val x l) ∧
        val x (r + 1) < val x l := by
  intro fuel
  induction fuel with
  | zero => intro i _ m hm; simp [localMaxAux] at hm
  | succ fuel ih =>
    intro i hi1 m hm
    unfold localMaxAux at hm
    by_cases hi : i < imax
    · rw [if_pos hi] at hm
      by_cases hrise : val x (i - 1) < val x i
      · rw [if_pos hrise] at hm
        have hge := plateauEnd_ge x (val x i) imax (i + 1)
        have hle := plateauEnd_le x (val x i) imax (i + 1) (by omega)
        by_cases hfall : val x (plateauEnd x (val x i) imax (i + 1)) < val x i
        · rw [if_pos hfall] at hm
          rcases List.mem_cons.mp hm with rfl | hm'
          · refine ⟨i, plateauEnd x (val x i) imax (i + 1) - 1, hi1, by omega, by omega,
              by omega, hrise, ?_, ?_⟩
            · intro k hk1 hk2
              rcases Nat.eq_or_lt_of_le hk1 with rfl | hklt
              · rfl
              · exact plateauEnd_plateau x (val x i) imax (i + 1) k hklt (by omega)
            · have hre : plateauEnd x (val x i) imax (i + 1) - 1 + 1
                  = plateauEnd x (val x i) imax (i + 1) := by omega
              rw [hre]
              exact hfall
          · exact ih _ (by omega) m hm'
        · rw [if_neg hfall] at hm
          exact ih _ (by omega) m hm
      · rw [if_neg hrise] at hm
        exact ih _ (by omega) m hm
    · rw [if_neg hi] at hm
      simp at hm

/-- Every index produced by the local-maximum scan is an interior plateau
local maximum. -/
theorem localMaxima_isLocalMax (x : List ℚ) :
    ∀ m ∈ localMaxima x, IsLocalMax x m := by
  intro m hm
  have h1 := lmAux_localmax x (x.length - 1) x.length 1 (le_refl 1) m hm
  have hb := lmAux_bounds x (x.length - 1) x.length 1 m hm
  obtain ⟨l, r, hl1, hlm, hmr, hr, hrise, hplat, hfall⟩ := h1
  have hxlen : 1 ≤ x.length := by omega
  have hvm : val x m = val x l := hplat m hlm hmr
  exact ⟨l, r, hl1, hlm, hmr, by omega, by rw [hvm]; exact hrise,
    fun k hk1 hk2 => by rw [hvm]; exact hplat k hk1 hk2, by rw [hvm]; exact hfall⟩

theorem localMaxima_sorted (x : List ℚ) :
    List.Pairwise (fun a b => a < b) (localMaxima x) :=
  lmAux_sorted x (x.length - 1) x.length 1

theorem localMaxima_bounds (x : List ℚ) :
    ∀ m ∈ localMaxima x, 1 ≤ m ∧ m + 2 ≤ x.length := by
  intro m hm
  have hb := lmAux_bounds x (x.length - 1) x.length 1 m hm
  omega

theorem maskSelect_sublist : ∀ (ps : List Nat) (bs : List Bool),
    List.Sublist (maskSelect ps bs) ps := by
  intro ps
  induction ps with
  | nil => intro bs; cases bs <;> simp [maskSelect]
  | cons p ps ih =>
    intro bs
    cases bs with
    | nil => simp [maskSelect]
    | cons b bs =>
      unfold maskSelect
      by_cases hb : b
      · rw [if_pos hb]
        exact List.Sublist.cons₂ p (ih bs)
      · rw [if_neg hb]
        exact List.Sublist.cons p (ih bs)

theorem maskSelect_mem : ∀ (ps : List Nat) (bs : List Bool) (p : Nat),
    p ∈ maskSelect ps bs →
      ∃ j, j < ps.length ∧ ps.getD j 0 = p ∧ bs.getD j false = true := by
  intro ps
  induction ps with
  | nil => intro bs p hp; cases bs <;> simp [maskSelect] at hp
  | cons q ps ih =>
    intro bs p hp
    cases bs with
    | nil => simp [maskSelect] at hp
    | cons b bs =>
      unfold maskSelect at hp
      by_cases hb : b
      · rw [if_pos hb] at hp
        rcases List.mem_cons.mp hp with rfl | hp'
        · exact ⟨0, by simp, rfl, by simp [hb]⟩
        · obtain ⟨j, hj, hqj, hbj⟩ := ih bs p hp'
          exact ⟨j + 1, by simpa using hj, by simpa using hqj, by simpa using hbj⟩
      · rw [if_neg hb] at hp
        obtain ⟨j, hj, hqj, hbj⟩ := ih bs p hp
        exact ⟨j + 1, by simpa using hj, by simpa using hqj, by simpa using hbj⟩

theorem set_false_getD (keep : List Bool) (k i : Nat)
    (h : (keep.set k false).getD i false = true) : keep.getD i false = true := by
  rw [List.getD_eq_getElem?_getD, List.getElem?_set] at h
  by_cases hk : k = i
  · rw [if_pos hk] at h
    split at h <;> simp at h
  · rw [if_neg hk] at h
    rw [List.getD_eq_getElem?_getD]
    exact h

theorem getD_set_self_false (keep : List Bool) (k : Nat) :
    (keep.set k false).getD k false = false := by
  rw [List.getD_eq_getElem?_getD, List.getElem?_set, if_pos rfl]
  split <;> simp

theorem suppressLeft_length (pk : List Nat) (d pj : Nat) :
    ∀ c keep, (suppressLeft pk d pj c keep).length = keep.length := by
  intro c
  induction c with
  | zero => intro keep; rfl
  | succ c ih =>
    intro keep
    unfold suppressLeft
    split
    · rw [ih]
      exact List.length_set keep c false
    · rfl

theorem suppressRight_length (pk : List Nat) (d pj : Nat) :
    ∀ rem k keep, (suppressRight pk d pj rem k keep).length = keep.length := by
  intro rem
  induction rem with
  | zero => intro k keep; rfl
  | succ rem ih =>
    intro k keep
    unfold suppressRight
    split
    · rw [ih]
      exact List.length_set keep k false
    · rfl

theorem suppressLeft_true (pk : List Nat) (d pj : Nat) :
    ∀ c keep i, (suppressLeft pk d pj c keep).getD i false = true →
      keep.getD i false = true := by
  intro c
  induction c with
  | zero => intro keep i h; exact h
  | succ c ih =>
    intro keep i h
    unfold suppressLeft at h
    split at h
    · exact set_false_getD keep c i (ih _ i h)
    · exact h

theorem suppressRight_true (pk : List Nat) (d pj : Nat) :
    ∀ rem k keep i, (suppressRight pk d pj rem k keep).getD i false = true →
      keep.getD i false = true := by
  intro rem
  induction rem with
  | zero => intro k keep i h; exact h
  | succ rem ih =>
    intro k keep i h
    unfold suppressRight at h
    split at h
    · exact set_false_getD keep k i (ih _ _ i h)
    · exact h

theorem suppressLeft_false (pk : List Nat) (d pj : Nat) (c : Nat) (keep : List Bool)
    (i : Nat) (hf : keep.getD i false = false) :
    (suppressLeft pk d pj c keep).getD i false = false := by
  cases hb : (suppressLeft pk d pj c keep).getD i false
  · rfl
  · have := suppressLeft_true pk d pj c keep i hb
    rw [this] at hf
    exact absurd hf (by simp)

theorem suppressRight_false (pk : List Nat) (d pj : Nat) (rem k : Nat) (keep : List Bool)
    (i : Nat) (hf : keep.getD i false = false) :
    (suppressRight pk d pj rem k keep).getD i false = false := by
  cases hb : (suppressRight pk d pj rem k keep).getD i false
  · rfl
  · have := suppressRight_true pk d pj rem k keep i hb
    rw [this] at hf
    exact absurd hf (by simp)

theorem distanceLoop_true (pk : List Nat) (d : Nat) :
    ∀ ord keep i, (distanceLoop pk d ord keep).getD i false = true →
      keep.getD i false = true := by
  intro ord
  induction ord with
  | nil => intro keep i h; exact h
  | cons j rest ih =>
    intro keep i h
    unfold distanceLoop at h
    split at h
    · exact suppressLeft_true pk d _ j keep i
        (suppressRight_true pk d _ _ _ _ i (ih _ i h))
    · exact ih _ i h

theorem distanceLoop_length (pk : List Nat) (d : Nat) :
    ∀ ord keep, (distanceLoop pk d ord keep).length = keep.length := by
  intro ord
  induction ord with
  | nil => intro keep; rfl
  | cons j rest ih =>
    intro keep
    unfold distanceLoop
    split
    · rw [ih, suppressRight_length, suppressLeft_length]
    · exact ih keep

theorem suppressLeft_hits (pk : List Nat) (d pj : Nat)
    (hmono : ∀ i j, i ≤ j → j < pk.length → pk.getD i 0 ≤ pk.getD j 0) :
    ∀ c keep a, a < c → c ≤ pk.length →
      ((pj : Int) - (pk.getD a 0 : Int) < (d : Int)) →
      (suppressLeft pk d pj c keep).getD a false = false := by
  intro c
  induction c with
  | zero => intro keep a hac; omega
  | succ c ih =>
    intro keep a hac hcl hcond
    have hmc := hmono a c (by omega) (by omega)
    have hcondc : (pj : Int) - (pk.getD c 0 : Int) < (d : Int) := by omega
    unfold suppressLeft
    rw [if_pos hcondc]
    rcases Nat.eq_or_lt_of_le (Nat.le_of_lt_succ hac) with rfl | hlt
    · exact suppressLeft_false pk d pj a _ a (getD_set_self_false keep a)
    · exact ih _ a hlt (by omega) hcond

theorem suppressRight_hits (pk : List Nat) (d pj : Nat)
    (hmono : ∀ i j, i ≤ j → j < pk.length → pk.getD i 0 ≤ pk.getD j 0) :
    ∀ rem k keep a, k ≤ a → a < pk.length → pk.length ≤ k + rem →
      ((pk.getD a 0 : Int) - (pj : Int) < (d : Int)) →
      (suppressRight pk d pj rem k keep).getD a false = false := by
  intro rem
  induction rem with
  | zero => intro k keep a hka hal hlen; omega
  | succ rem ih =>
    intro k keep a hka hal hlen hcond
    have hmk := hmono k a hka hal
    have hcondk : (pk.getD k 0 : Int) - (pj : Int) < (d : Int) := by omega
    unfold suppressRight
    rw [if_pos hcondk]
    rcases Nat.eq_or_lt_of_le hka with rfl | hlt
    · exact suppressRight_false pk d pj rem (k + 1) _ k (getD_set_self_false keep k)
    · exact ih (k + 1) _ a hlt hal (by omega) hcond

theorem distanceLoop_separates (pk : List Nat) (d : Nat)
    (hmono : ∀ i j, i ≤ j → j < pk.length → pk.getD i 0 ≤ pk.getD j 0) :
    ∀ ord keep a b, a < b → b < pk.length →
      a ∈ ord → b ∈ ord →
      ((pk.getD b 0 : Int) - (pk.getD a 0 : Int) < (d : Int)) →
      ¬((distanceLoop pk d ord keep).getD a false = true ∧
        (distanceLoop pk d ord keep).getD b false = true) := by
  intro ord
  induction ord with
  | nil => intro keep a b _ _ ha; simp at ha
  | cons j rest ih =>
    intro keep a b hab hbl ha hb hclose hcontra
    obtain ⟨hA, hB⟩ := hcontra
    unfold distanceLoop at hA hB
    by_cases hj : keep.getD j false = true
    · rw [if_pos hj] at hA hB
      by_cases hja : j = a
      · subst hja
        have hbf : (suppressRight pk d (pk.getD j 0) (pk.length - (j + 1)) (j + 1)
            (suppressLeft pk d (pk.getD j 0) j keep)).getD b false = false :=
          suppressRight_hits pk d (pk.getD j 0) hmono (pk.length - (j + 1)) (j + 1) _ b
            (by omega) hbl (by omega) hclose
        have hbt := distanceLoop_true pk d rest _ b hB
        rw [hbt] at hbf
        exact absurd hbf (by simp)
      · by_cases hjb : j = b
        · subst hjb
          have haf1 : (suppressLeft pk d (pk.getD j 0) j keep).getD a false = false :=
            suppressLeft_hits pk d (pk.getD j 0) hmono j keep a hab (le_of_lt hbl) hclose
          have haf : (suppressRight pk d (pk.getD j 0) (pk.length - (j + 1)) (j + 1)
              (suppressLeft pk d (pk.getD j 0) j keep)).getD a false = false :=
            suppressRight_false pk d (pk.getD j 0) _ _ _ a haf1
          have hat := distanceLoop_true pk d rest _ a hA
          rw [hat] at haf
          exact absurd haf (by simp)
        · have ha' : a ∈ rest := by
            rcases List.mem_cons.mp ha with h | h
            · exact absurd h.symm hja
            · exact h
          have hb' : b ∈ rest := by
            rcases List.mem_cons.mp hb with h | h
            · exact absurd h.symm hjb
            · exact h
          exact ih _ a b hab hbl ha' hb' hclose ⟨hA, hB⟩
    · rw [if_neg hj] at hA hB
      by_cases hja : j = a
      · subst hja
        exact hj (distanceLoop_true pk d rest keep j hA)
      · by_cases hjb : j = b
        · subst hjb
          exact hj (distanceLoop_true pk d rest keep j hB)
        · have ha' : a ∈ rest := by
            rcases List.mem_cons.mp ha with h | h
            · exact absurd h.symm hja
            · exact h
          have hb' : b ∈ rest := by
            rcases List.mem_cons.mp hb with h | h
            · exact absurd h.symm hjb
            · exact h
          exact ih keep a b hab hbl ha' hb' hclose ⟨hA, hB⟩

theorem pairwise_lt_getD (l : List Nat) (hs : List.Pairwise (fun a b => a < b) l)
    (i j : Nat) (hij : i < j) (hj : j < l.length) : l.getD i 0 < l.getD j 0 := by
  have hi : i < l.length := lt_trans hij hj
  rw [List.getD_eq_getElem?_getD, List.getD_eq_getElem?_getD,
    List.getElem?_eq_getElem hi, List.getElem?_eq_getElem hj]
  simp only [Option.getD_some]
  exact List.pairwise_iff_getElem.mp hs i j hi hj hij

theorem mem_argsort_reverse (vs : List ℚ) (a : Nat) (ha : a < vs.length) :
    a ∈ (argsortQ vs).reverse := by
  rw [List.mem_reverse]
  unfold argsortQ
  rw [(List.perm_insertionSort _ (List.range vs.length)).mem_iff]
  exact List.mem_range.mpr ha

theorem find_peaks_h_sorted (x : List ℚ) (h : ℚ) :
    List.Pairwise (fun a b => a < b) (find_peaks_h x h) :=
  (localMaxima_sorted x).sublist (List.filter_sublist _)

theorem find_peaks_h_mem (x : List ℚ) (h : ℚ) :
    ∀ p ∈ find_peaks_h x h, p ∈ localMaxima x ∧ h ≤ val x p := by
  intro p hp
  rw [find_peaks_h, List.mem_filter] at hp
  exact ⟨hp.1, by simpa using hp.2⟩

theorem find_peaks_subset_h (x : List ℚ) (h : ℚ) (d : Nat) :
    ∀ p ∈ find_peaks x h d, p ∈ find_peaks_h x h := by
  intro p hp
  exact (maskSelect_sublist _ _).subset hp

theorem find_peaks_sorted (x : List ℚ) (h : ℚ) (d : Nat) :
    List.Pairwise (fun a b => a < b) (find_peaks x h d) :=
  (find_peaks_h_sorted x h).sublist (maskSelect_sublist _ _)

theorem find_peaks_sep (x : List ℚ) (h : ℚ) (d : Nat) :
    ∀ p ∈ find_peaks x h d, ∀ q ∈ find_peaks x h d, p < q → p + d ≤ q := by
  intro p hp q hq hpq
  obtain ⟨a, hal, hpa, hka⟩ := maskSelect_mem _ _ p hp
  obtain ⟨b, hbl, hpb, hkb⟩ := maskSelect_mem _ _ q hq
  have hsorted := find_peaks_h_sorted x h
  have hmono : ∀ i j, i ≤ j → j < (find_peaks_h x h).length →
      (find_peaks_h x h).getD i 0 ≤ (find_peaks_h x h).getD j 0 := by
    intro i j hij hj
    rcases Nat.eq_or_lt_of_le hij with rfl | hlt
    · exact le_refl _
    · exact le_of_lt (pairwise_lt_getD _ hsorted i j hlt hj)
  have hab : a < b := by
    rcases lt_trichotomy a b with hlt | rfl | hgt
    · exact hlt
    · rw [hpa] at hpb
      omega
    · have := pairwise_lt_getD _ hsorted b a hgt hal
      rw [hpa, hpb] at this
      omega
  by_contra hqd
  have hclose : ((find_peaks_h x h).getD b 0 : Int) -
      ((find_peaks_h x h).getD a 0 : Int) < (d : Int) := by
    rw [hpa, hpb]
    omega
  have hlenvs : ((find_peaks_h x h).map fun p => val x p).length
      = (find_peaks_h x h).length := List.length_map _ _
  exact distanceLoop_separates _ d hmono
    ((argsortQ ((find_peaks_h x h).map fun p => val x p)).reverse)
    (List.replicate (find_peaks_h x h).length true) a b hab hbl
    (mem_argsort_reverse _ a (by omega))
    (mem_argsort_reverse _ b (by omega))
    hclose ⟨hka, hkb⟩

theorem sum_map_range_eq_finset (f : Nat → ℚ) (n : Nat) :
    ((List.range n).map f).sum = ∑ j ∈ Finset.range n, f j := by
  induction n with
  | zero => simp
  | succ n ih => simp [List.range_succ, Finset.sum_range_succ, ih]

theorem sum_getD_range (l : List ℚ) :
    ((List.range l.length).map fun j => l.getD j 0).sum = l.sum := by
  induction l with
  | nil => simp
  | cons a t ih =>
    have hm : (List.range t.length).map ((fun j => (a :: t).getD j 0) ∘ Nat.succ)
        = (List.range t.length).map fun j => t.getD j 0 :=
      List.map_congr_left fun j _ => by simp
    simp only [List.length_cons, List.range_succ_eq_map, List.map_cons, List.map_map,
      List.sum_cons, hm, ih, List.getD_cons_zero]

/-- For `n ≥ w`, output entry `i` of the valid-mode convolution is the mean
of raw samples `[i, i+w)`. -/
theorem fullConv_window (a : List ℚ) (i : Nat) (hi : i + 5 ≤ a.length) :
    fullConv a 5 (4 + i) = windowMean a i 5 := by
  unfold fullConv windowMean
  rw [sum_map_range_eq_finset, sum_map_range_eq_finset]
  have step1 : ∀ j ∈ Finset.range a.length,
      a.getD j 0 * kernelAt 5 ((4 + i : Nat) - (j : Int))
        = if i ≤ j ∧ j ≤ i + 4 then a.getD j 0 * (1 / 5) else 0 := by
    intro j hj
    have hker : kernelAt 5 ((4 + i : Nat) - (j : Int))
        = if i ≤ j ∧ j ≤ i + 4 then (1 / 5 : ℚ) else 0 := by
      unfold kernelAt
      by_cases hc : i ≤ j ∧ j ≤ i + 4
      · obtain ⟨h1, h2⟩ := hc
        rw [if_pos ⟨by push_cast; omega, by push_cast; omega⟩, if_pos ⟨h1, h2⟩]
        norm_num
      · rw [if_neg, if_neg hc]
        intro hcc
        obtain ⟨h1, h2⟩ := hcc
        push_cast at h1 h2
        omega
    rw [hker, mul_ite, mul_zero]
  rw [Finset.sum_congr rfl step1, ← Finset.sum_filter]
  have hset : (Finset.range a.length).filter (fun j => i ≤ j ∧ j ≤ i + 4)
      = Finset.Ico i (i + 5) := by
    ext j
    simp only [Finset.mem_filter, Finset.mem_range, Finset.mem_Ico]
    omega
  rw [hset, Finset.sum_Ico_eq_sum_range]
  have h55 : i + 5 - i = 5 := by omega
  rw [h55, ← Finset.sum_mul]
  push_cast
  ring

/-- For a short non-empty input (`0 < n < w`), every valid-mode output entry
equals the sum of all `n` samples divided by `w` (full overlap of the short
sequence inside the kernel). -/
theorem fullConv_short (a : List ℚ) (i : Nat)
    (h5 : a.length < 5) (hi : i ≤ 5 - a.length) :
    fullConv a 5 (a.length - 1 + i) = a.sum / 5 := by
  unfold fullConv
  have step1 : ∀ j ∈ Finset.range a.length,
      a.getD j 0 * kernelAt 5 ((a.length - 1 + i : Nat) - (j : Int))
        = a.getD j 0 * (1 / 5) := by
    intro j hj
    rw [Finset.mem_range] at hj
    have hker : kernelAt 5 ((a.length - 1 + i : Nat) - (j : Int)) = (1 / 5 : ℚ) := by
      unfold kernelAt
      rw [if_pos ⟨by push_cast; omega, by push_cast; omega⟩]
      norm_num
    rw [hker]
  rw [sum_map_range_eq_finset, Finset.sum_congr rfl step1, ← Finset.sum_mul,
    ← sum_map_range_eq_finset, sum_getD_range]
  ring

theorem convolveValid_long (x : List ℚ) (h5 : 5 ≤ x.length) :
    convolveValid x 5
      = some ((List.range (x.length - 5 + 1)).map fun i => fullConv x 5 (4 + i)) := by
  unfold convolveValid
  rw [if_neg (by omega), if_pos h5]

/-- The spec's concrete conditioning scenario, evaluated. -/
theorem conditioner_scenario :
    convolveValid [100, 110, 120, 90, 80, 70] 5 = some [100, 94] := by
  rw [convolveValid_long _ (by simp)]
  have h0 : fullConv [100, 110, 120, 90, 80, 70] 5 (4 + 0)
      = windowMean [100, 110, 120, 90, 80, 70] 0 5 :=
    fullConv_window _ 0 (by simp)
  have h1 : fullConv [100, 110, 120, 90, 80, 70] 5 (4 + 1)
      = windowMean [100, 110, 120, 90, 80, 70] 1 5 :=
    fullConv_window _ 1 (by simp)
  have hr : List.range (([100, 110, 120, 90, 80, 70] : List ℚ).length - 5 + 1) = [0, 1] := by
    simp
    rfl
  rw [hr]
  simp only [List.map_cons, List.map_nil, h0, h1]
  unfold windowMean
  norm_num [List.range_succ]

/-- C2: for every raw channel sequence of length `n ≥ 5`, the Signal
Conditioner returns a filtered sequence of length `n − 5 + 1` whose entry
`i` is the arithmetic mean of raw samples `i .. i+4`; the companion
timestamp sequence drops the first 4 timestamps; on the spec's concrete
channel-1 scenario `[100,110,120,90,80,70]` the filtered output is
`[100, 94]`. -/
theorem signal_conditioner_contract (x : List ℚ) (ts : List ℤ)
    (h5 : 5 ≤ x.length) :
    (∃ l, convolveValid x 5 = some l ∧ l.length = x.length - 5 + 1 ∧
      ∀ i, i < l.length → l.getD i 0 = windowMean x i 5)
    ∧ conditionTimestamps ts 5 = ts.drop 4
    ∧ convolveValid [100, 110, 120, 90, 80, 70] 5 = some [100, 94] := by
  refine ⟨⟨(List.range (x.length - 5 + 1)).map fun i => fullConv x 5 (4 + i),
      ?_, ?_, ?_⟩, rfl, conditioner_scenario⟩
  · rw [convolveValid_long x h5]
  · simp
  · intro i hi
    rw [List.length_map, List.length_range] at hi
    have hgd : ((List.range (x.length - 5 + 1)).map fun i => fullConv x 5 (4 + i)).getD i 0
        = fullConv x 5 (4 + i) := by
      rw [List.getD_eq_getElem?_getD, List.getElem?_map, List.getElem?_range hi]
      rfl
    rw [hgd, fullConv_window x i (by omega)]

/-- Closed witness for C2 at the spec's concrete scenario. -/
theorem signal_conditioner_contract_witness :
    (5 ≤ ([100, 110, 120, 90, 80, 70] : List ℚ).length)
    ∧ ((∃ l, convolveValid [100, 110, 120, 90, 80, 70] 5 = some l ∧
          l.length = ([100, 110, 120, 90, 80, 70] : List ℚ).length - 5 + 1 ∧
          ∀ i, i < l.length → l.getD i 0 = windowMean [100, 110, 120, 90, 80, 70] i 5)
        ∧ conditionTimestamps [0, 10, 20, 30, 40, 50] 5 = [40, 50]
        ∧ convolveValid [100, 110, 120, 90, 80, 70] 5 = some [100, 94]) :=
  ⟨by simp, signal_conditioner_contract [100, 110, 120, 90, 80, 70] [0, 10, 20, 30, 40, 50]
      (by simp)⟩

/-- C3: every index returned by the Peak Detector (min_height = mean of the
filtered sequence, min_distance = 30) points to a local maximum of value at
least min_height; any two returned indices are at least 30 apart; the
returned list is strictly increasing; and an input with no qualifying
maxima yields an empty list rather than an error. -/
theorem peak_detector_contract (x : List ℚ) :
    (∀ p ∈ peakDetect x, IsLocalMax x p ∧ mean x ≤ val x p)
    ∧ (∀ p ∈ peakDetect x, ∀ q ∈ peakDetect x, p < q → p + 30 ≤ q)
    ∧ List.Pairwise (fun a b => a < b) (peakDetect x)
    ∧ (find_peaks_h x (mean x) = [] → peakDetect x = []) := by
  refine ⟨?_, find_peaks_sep x (mean x) 30, find_peaks_sorted x (mean x) 30, ?_⟩
  · intro p hp
    have hmem := find_peaks_h_mem x (mean x) p (find_peaks_subset_h x (mean x) 30 p hp)
    exact ⟨localMaxima_isLocalMax x p hmem.1, hmem.2⟩
  · intro h
    unfold peakDetect find_peaks
    rw [h]
    rfl

theorem peakDetect_example_eval : peakDetect [0, 1, 0] = [1] := by
  norm_num [peakDetect, find_peaks, find_peaks_h, localMaxima, localMaxAux, plateauEnd,
    plateauEndAux, val, mean, argsortQ, selectByPeakDistance, distanceLoop, suppressLeft,
    suppressRight, maskSelect, List.insertionSort, List.orderedInsert]

/-- Closed witness for C3 on the signal `[0, 1, 0]`, whose only peak is
index 1. -/
theorem peak_detector_contract_witness :
    (1 ∈ peakDetect [0, 1, 0])
    ∧ IsLocalMax [0, 1, 0] 1 ∧ mean [0, 1, 0] ≤ val [0, 1, 0] 1 := by
  have hm : 1 ∈ peakDetect [0, 1, 0] := by
    rw [peakDetect_example_eval]
    exact List.mem_singleton.mpr rfl
  have h := (peak_detector_contract [0, 1, 0]).1 1 hm
  exact ⟨hm, h.1, h.2⟩

theorem slice_length (x : List ℚ) (s m : Nat) (hm : s + m ≤ x.length) :
    ((x.drop s).take m).length = m := by
  rw [List.length_take, List.length_drop]
  omega

theorem val_slice (x : List ℚ) (s m c : Nat) (hc : c < m) :
    val ((x.drop s).take m) c = val x (s + c) := by
  unfold val
  rw [List.getD_eq_getElem?_getD, List.getD_eq_getElem?_getD, List.getElem?_take,
    if_pos hc, List.getElem?_drop]

/-- C4: for each systolic peak `p`, the Foot Detector emits no foot exactly
when the search subrange `[p+10, min(p+100, n−1))` is empty or holds no
qualifying local maximum; otherwise it emits exactly one foot `f` inside
that subrange, of height at least `0.3 · value(p)`, and `f` is the
lowest-index qualifying candidate. -/
theorem foot_detector_contract (x : List ℚ) (p : Nat) :
    (footForPeak x p = none ↔
      (min (p + 100) (x.length - 1) ≤ p + 10 ∨
        find_peaks_h ((x.drop (p + 10)).take (min (p + 100) (x.length - 1) - (p + 10)))
          (3 / 10 * val x p) = []))
    ∧ ∀ f, footForPeak x p = some f →
        p + 10 ≤ f ∧ f < min (p + 100) (x.length - 1) ∧
        3 / 10 * val x p ≤ val x f ∧
        ∀ c ∈ find_peaks_h ((x.drop (p + 10)).take (min (p + 100) (x.length - 1) - (p + 10)))
            (3 / 10 * val x p), f ≤ p + 10 + c := by
  constructor
  · unfold footForPeak
    by_cases he : min (p + 100) (x.length - 1) ≤ p + 10
    · rw [if_pos he]
      simp [he]
    · rw [if_neg he]
      cases hc : find_peaks_h
          ((x.drop (p + 10)).take (min (p + 100) (x.length - 1) - (p + 10)))
          (3 / 10 * val x p) with
      | nil => simp [he]
      | cons c rest => simp [he]
  · intro f hf
    unfold footForPeak at hf
    by_cases he : min (p + 100) (x.length - 1) ≤ p + 10
    · rw [if_pos he] at hf
      exact absurd hf (by simp)
    · rw [if_neg he] at hf
      cases hc : find_peaks_h
          ((x.drop (p + 10)).take (min (p + 100) (x.length - 1) - (p + 10)))
          (3 / 10 * val x p) with
      | nil =>
        rw [hc] at hf
        exact absurd hf (by simp)
      | cons c rest =>
        rw [hc] at hf
        have hfc : f = p + 10 + c := by
          cases hf
          rfl
        subst hfc
        have hcm : c ∈ find_peaks_h
            ((x.drop (p + 10)).take (min (p + 100) (x.length - 1) - (p + 10)))
            (3 / 10 * val x p) := by
          rw [hc]
          exact List.mem_cons_self c rest
        have hmem := find_peaks_h_mem _ _ c hcm
        have hx1 : 1 ≤ x.length := by omega
        have hse : p + 10 + (min (p + 100) (x.length - 1) - (p + 10)) ≤ x.length := by
          omega
        have hslen := slice_length x (p + 10) (min (p + 100) (x.length - 1) - (p + 10)) hse
        have hbounds := localMaxima_bounds _ c hmem.1
        rw [hslen] at hbounds
        have hcs : c < min (p + 100) (x.length - 1) - (p + 10) := by omega
        have hval := val_slice x (p + 10) (min (p + 100) (x.length - 1) - (p + 10)) c hcs
        refine ⟨by omega, by omega, ?_, ?_⟩
        · rw [← hval]
          exact hmem.2
        · intro c' hc'
          rcases List.mem_cons.mp hc' with rfl | hc''
          · exact le_refl _
          · have hsorted := find_peaks_h_sorted
              ((x.drop (p + 10)).take (min (p + 100) (x.length - 1) - (p + 10)))
              (3 / 10 * val x p)
            rw [hc] at hsorted
            have := (List.pairwise_cons.mp hsorted).1 c' hc''
            omega

theorem footForPeak_example_eval :
    footForPeak [10, 0, 0, 0, 0, 0, 0, 0, 0, 0, 1, 5, 1, 0] 0 = some 11 := by
  norm_num [footForPeak, find_peaks_h, localMaxima, localMaxAux, plateauEnd,
    plateauEndAux, val, min_def]

/-- Closed witness for C4 on a 14-sample signal with peak index 0 and one
qualifying diastolic candidate at index 11. -/
theorem foot_detector_contract_witness :
    footForPeak [10, 0, 0, 0, 0, 0, 0, 0, 0, 0, 1, 5, 1, 0] 0 = some 11
    ∧ (0 + 10 ≤ 11
      ∧ 11 < min (0 + 100) (([10, 0, 0, 0, 0, 0, 0, 0, 0, 0, 1, 5, 1, 0] : List ℚ).length - 1)
      ∧ 3 / 10 * val [10, 0, 0, 0, 0, 0, 0, 0, 0, 0, 1, 5, 1, 0] 0
          ≤ val [10, 0, 0, 0, 0, 0, 0, 0, 0, 0, 1, 5, 1, 0] 11
      ∧ ∀ c ∈ find_peaks_h
            ((([10, 0, 0, 0, 0, 0, 0, 0, 0, 0, 1, 5, 1, 0] : List ℚ).drop (0 + 10)).take
              (min (0 + 100) (([10, 0, 0, 0, 0, 0, 0, 0, 0, 0, 1, 5, 1, 0] : List ℚ).length - 1)
                - (0 + 10)))
            (3 / 10 * val [10, 0, 0, 0, 0, 0, 0, 0, 0, 0, 1, 5, 1, 0] 0),
          11 ≤ 0 + 10 + c) :=
  ⟨footForPeak_example_eval,
    (foot_detector_contract [10, 0, 0, 0, 0, 0, 0, 0, 0, 0, 1, 5, 1, 0] 0).2 11
      footForPeak_example_eval⟩

theorem foldl_append_filter (f : Nat → ℤ) (P : ℤ → Prop) [DecidablePred P] :
    ∀ (l : List Nat) (acc : List ℤ),
      l.foldl (fun acc i => if P (f i) then acc ++ [f i] else acc) acc
        = acc ++ (l.map f).filter fun v => decide (P v) := by
  intro l
  induction l with
  | nil => intro acc; simp
  | cons i l ih =>
    intro acc
    simp only [List.foldl_cons, List.map_cons, List.filter_cons]
    by_cases hp : P (f i)
    · rw [if_pos hp, ih]
      simp [hp]
    · rw [if_neg hp, ih]
      simp [hp]

/-- C1: the Transit-Time Estimator returns, in order, exactly the
positional differences that lie strictly inside (0, 300); hence every
emitted value is in (0, 300) and the output is no longer than the shorter
index sequence. -/
theorem transit_time_contract (ts : List ℤ) (i1 i2 : List Nat) :
    calculate_ptt ts i1 i2 = transitSpec ts i1 i2
    ∧ (∀ v ∈ calculate_ptt ts i1 i2, 0 < v ∧ v < 300)
    ∧ (calculate_ptt ts i1 i2).length ≤ min i1.length i2.length := by
  have heq : calculate_ptt ts i1 i2 = transitSpec ts i1 i2 := by
    unfold calculate_ptt transitSpec
    rw [foldl_append_filter (fun i => ts.getD (i2.getD i 0) 0 - ts.getD (i1.getD i 0) 0)
      (fun v => 0 < v ∧ v < 300) (List.range (min i1.length i2.length)) []]
    simp [Bool.decide_and]
  refine ⟨heq, ?_, ?_⟩
  · intro v hv
    rw [heq] at hv
    unfold transitSpec at hv
    rw [List.mem_filter] at hv
    have h2 := hv.2
    simp at h2
    exact h2
  · rw [heq]
    unfold transitSpec
    exact le_trans (List.length_filter_le _ _) (by simp)

/-- Closed witness for C1 on timestamps `[0, 10]` with index lists `[0]`
and `[1]`. -/
theorem transit_time_contract_witness :
    (10 : ℤ) ∈ calculate_ptt [0, 10] [0] [1]
    ∧ (0 < (10 : ℤ) ∧ (10 : ℤ) < 300)
    ∧ calculate_ptt [0, 10] [0] [1] = transitSpec [0, 10] [0] [1] := by
  have hev : calculate_ptt [0, 10] [0] [1] = [10] := by
    norm_num [calculate_ptt, min_def, List.range_succ]
  have h := transit_time_contract [0, 10] [0] [1]
  have hm : (10 : ℤ) ∈ calculate_ptt [0, 10] [0] [1] := by
    rw [hev]
    exact List.mem_singleton.mpr rfl
  exact ⟨hm, h.2.1 10 hm, h.1⟩

theorem foldl_congr_on (f g : List ℤ → Nat → List ℤ) :
    ∀ (l : List Nat), (∀ i ∈ l, ∀ acc, f acc i = g acc i) →
      ∀ acc, l.foldl f acc = l.foldl g acc := by
  intro l
  induction l with
  | nil => intro _ acc; rfl
  | cons i l ih =>
    intro h acc
    simp only [List.foldl_cons]
    rw [h i (List.mem_cons_self i l) acc]
    exact ih (fun j hj acc2 => h j (List.mem_cons_of_mem i hj) acc2) _

/-- C9: when every positional timestamp difference is strictly positive,
the signed-difference estimator (`pwv_script.calculate_ptt`) and the
absolute-difference loop (`script.process_data`) coincide. -/
theorem signed_abs_variants_agree (ts : List ℤ) (i1 i2 : List Nat)
    (hpos : ∀ i, i < min i1.length i2.length →
      0 < ts.getD (i2.getD i 0) 0 - ts.getD (i1.getD i 0) 0) :
    calculate_ptt ts i1 i2 = calculate_ptt_abs ts i1 i2 := by
  unfold calculate_ptt calculate_ptt_abs
  apply foldl_congr_on
  intro i hi acc
  have hp := hpos i (List.mem_range.mp hi)
  rw [abs_of_pos hp]

/-- Closed witness for C9: both variants give `[10]` on timestamps
`[0, 10]`, indices `[0]` and `[1]`. -/
theorem signed_abs_variants_agree_witness :
    (∀ i, i < min ([0] : List Nat).length ([1] : List Nat).length →
      0 < ([0, 10] : List ℤ).getD (([1] : List Nat).getD i 0) 0
          - ([0, 10] : List ℤ).getD (([0] : List Nat).getD i 0) 0)
    ∧ calculate_ptt [0, 10] [0] [1] = calculate_ptt_abs [0, 10] [0] [1] := by
  have hpos : ∀ i, i < min ([0] : List Nat).length ([1] : List Nat).length →
      0 < ([0, 10] : List ℤ).getD (([1] : List Nat).getD i 0) 0
          - ([0, 10] : List ℤ).getD (([0] : List Nat).getD i 0) 0 := by
    intro i hi
    have h0 : i = 0 := by
      simp at hi
      omega
    subst h0
    decide
  exact ⟨hpos, signed_abs_variants_agree [0, 10] [0] [1] hpos⟩

theorem mapM_vel (d : ℚ) : ∀ (ptt : List ℤ), (∀ t ∈ ptt, t ≠ 0) →
    (ptt.mapM fun t : ℤ => if ((t : ℚ) / 1000) = 0 then none
        else some ((d / 100) / ((t : ℚ) / 1000)))
      = some (ptt.map fun t : ℤ => (d / 100) / ((t : ℚ) / 1000)) := by
  intro ptt
  induction ptt with
  | nil => intro _; rfl
  | cons t ptt ih =>
    intro h
    have htne : ((t : ℚ) / 1000) ≠ 0 := by
      have h1 : (t : ℚ) ≠ 0 := Int.cast_ne_zero.mpr (h t (List.mem_cons_self t ptt))
      exact div_ne_zero h1 (by norm_num)
    rw [List.mapM_cons, if_neg htne, ih fun u hu => h u (List.mem_cons_of_mem t hu)]
    rfl

/-- C5: with a positive distance the Velocity Estimator produces exactly
one velocity `(d/100)/(t/1000)` per transit time of a well-formed
TransitTimeSet (entries in (0, 300), hence nonzero); with a non-positive
distance the velocity set is empty and no error is raised. -/
theorem velocity_estimator_contract (ptt : List ℤ) (d : ℚ) :
    (0 < d → (∀ t ∈ ptt, 0 < t ∧ t < 300) →
      computePwv ptt d = some (ptt.map fun t : ℤ => (d / 100) / ((t : ℚ) / 1000)))
    ∧ (d ≤ 0 → computePwv ptt d = some []) := by
  constructor
  · intro hd hrange
    unfold computePwv
    rw [if_pos hd]
    exact mapM_vel d ptt fun t ht => by have := hrange t ht; omega
  · intro hd
    unfold computePwv
    rw [if_neg (not_lt.mpr hd)]

/-- Closed witness for C5: distance 20 cm and transit time 150 ms give
velocity 4/3 m/s. -/
theorem velocity_estimator_contract_witness :
    ((0 : ℚ) < 20 ∧ (0 < (150 : ℤ) ∧ (150 : ℤ) < 300))
    ∧ computePwv [150] 20 = some [4 / 3] := by
  have h := (velocity_estimator_contract [150] 20).1 (by norm_num)
    (by
      intro t ht
      simp at ht
      subst ht
      omega)
  refine ⟨⟨by norm_num, by omega, by omega⟩, ?_⟩
  rw [h]
  norm_num

theorem convolveValid_short (x : List ℚ) (h0 : x.length ≠ 0) (h5 : x.length < 5) :
    convolveValid x 5 = some (List.replicate (5 - x.length + 1) (x.sum / 5)) := by
  unfold convolveValid
  rw [if_neg (by omega), if_neg (by omega)]
  congr 1
  have hpt : ∀ i ∈ List.range (5 - x.length + 1),
      fullConv x 5 (x.length - 1 + i) = x.sum / 5 := by
    intro i hi
    rw [List.mem_range] at hi
    exact fullConv_short x i h5 (by omega)
  rw [List.map_congr_left hpt, List.map_const', List.length_range]

/-- C6 counterexample: on the length-4 input `[1, 2, 3, 4]` the Signal
Conditioner returns the non-empty sequence `[2, 2]`, not an empty result. -/
theorem conditioner_short_counterexample :
    convolveValid [1, 2, 3, 4] 5 = some [2, 2]
    ∧ convolveValid [1, 2, 3, 4] 5 ≠ some []
    ∧ convolveValid [1, 2, 3, 4] 5 ≠ none := by
  have h := convolveValid_short [1, 2, 3, 4] (by simp) (by simp)
  have h2 : convolveValid [1, 2, 3, 4] 5 = some [2, 2] := by
    rw [h]
    norm_num
    rfl
  exact ⟨h2, by rw [h2]; simp, by rw [h2]; simp⟩

/-- C6 (amended): for `0 < n < 5` the Signal Conditioner returns a
non-empty sequence of `5 − n + 1` entries, each the sum of all `n` samples
divided by 5 (numpy valid-mode convolution with the short sequence fully
inside the kernel); it does not produce an empty result. -/
theorem conditioner_short_contract (x : List ℚ) (h0 : x.length ≠ 0)
    (h5 : x.length < 5) :
    convolveValid x 5 = some (List.replicate (5 - x.length + 1) (x.sum / 5))
    ∧ 0 < 5 - x.length + 1 :=
  ⟨convolveValid_short x h0 h5, by omega⟩

/-- Closed witness for the amended C6 at `[1, 2, 3, 4]`. -/
theorem conditioner_short_contract_witness :
    (([1, 2, 3, 4] : List ℚ).length ≠ 0 ∧ ([1, 2, 3, 4] : List ℚ).length < 5)
    ∧ (convolveValid [1, 2, 3, 4] 5
        = some (List.replicate (5 - ([1, 2, 3, 4] : List ℚ).length + 1)
            (([1, 2, 3, 4] : List ℚ).sum / 5))
      ∧ 0 < 5 - ([1, 2, 3, 4] : List ℚ).length + 1) :=
  ⟨⟨by simp, by simp⟩, conditioner_short_contract [1, 2, 3, 4] (by simp) (by simp)⟩

/-- C7 counterexample: on a 0-sample session the Signal Conditioner raises
(`numpy.convolve` rejects an empty input) instead of returning an empty
result. -/
theorem empty_session_counterexample :
    convolveValid ([] : List ℚ) 5 = none
    ∧ (none : Option (List ℚ)) ≠ some [] :=
  ⟨rfl, by simp⟩

/-- C7 (amended): on a 0-sample session the live pipeline returns early at
the not-enough-data guard with no stage executed and no exception, while
the offline CSV pipeline raises at the conditioning stage, so its
downstream stages never produce results. -/
theorem empty_session_behaviour :
    process_data [] [] [] = Outcome.skipped
    ∧ process_csv_core [] [] [] 20 = Outcome.raised
    ∧ convolveValid ([] : List ℚ) 5 = none :=
  ⟨rfl, rfl, rfl⟩

/-- C8: the collection state machine: a start marker enters COLLECTING and
clears the three per-session buffers; an end marker leaves COLLECTING and
triggers processing of the buffered session; sample lines while IDLE are
discarded; malformed lines change nothing. -/
theorem collection_state_machine (s : CollectorState) (fs : List FieldTok) :
    (s.is_collecting = false →
      (collectStep s Line.start).is_collecting = true
      ∧ (collectStep s Line.start).timestamps = []
      ∧ (collectStep s Line.start).ppg1_data = []
      ∧ (collectStep s Line.start).ppg2_data = [])
    ∧ (s.is_collecting = true →
      (collectStep s Line.stop).is_collecting = false
      ∧ (collectStep s Line.stop).results
          = s.results ++ [process_data s.timestamps s.ppg1_data s.ppg2_data])
    ∧ (s.is_collecting = false → collectStep s (Line.data fs) = s)
    ∧ (parse3 fs = none → collectStep s (Line.data fs) = s) := by
  refine ⟨fun _ => ⟨rfl, rfl, rfl, rfl⟩, fun _ => ⟨rfl, rfl⟩, ?_, ?_⟩
  · intro h
    simp [collectStep, h]
  · intro h
    by_cases hcoll : s.is_collecting
    · simp [collectStep, hcoll, h]
    · simp [collectStep, hcoll]

/-- Closed witness for C8 at concrete IDLE and COLLECTING states. -/
theorem collection_state_machine_witness :
    ((collectStep (CollectorState.mk false [0] [1] [2] []) Line.start).is_collecting = true
      ∧ (collectStep (CollectorState.mk false [0] [1] [2] []) Line.start).timestamps = []
      ∧ (collectStep (CollectorState.mk false [0] [1] [2] []) Line.start).ppg1_data = []
      ∧ (collectStep (CollectorState.mk false [0] [1] [2] []) Line.start).ppg2_data = [])
    ∧ ((collectStep (CollectorState.mk true [0] [1] [2] []) Line.stop).is_collecting = false
      ∧ (collectStep (CollectorState.mk true [0] [1] [2] []) Line.stop).results
          = [] ++ [process_data [0] [1] [2]])
    ∧ collectStep (CollectorState.mk false [0] [1] [2] []) (Line.data [FieldTok.bad])
        = CollectorState.mk false [0] [1] [2] []
    ∧ collectStep (CollectorState.mk true [0] [1] [2] []) (Line.data [FieldTok.bad])
        = CollectorState.mk true [0] [1] [2] [] :=
  ⟨(collection_state_machine (CollectorState.mk false [0] [1] [2] []) [FieldTok.bad]).1 rfl,
    (collection_state_machine (CollectorState.mk true [0] [1] [2] []) [FieldTok.bad]).2.1 rfl,
    (collection_state_machine (CollectorState.mk false [0] [1] [2] []) [FieldTok.bad]).2.2.1 rfl,
    (collection_state_machine (CollectorState.mk true [0] [1] [2] []) [FieldTok.bad]).2.2.2 rfl⟩

/-- C10: each serial line preserves equality of the three buffer lengths: a
well-formed sample while collecting appends exactly one element to each
buffer, a malformed line appends to none (the three parses complete before
any append); the same invariant holds for `ppg_live.read_serial_data`. -/
theorem buffer_length_invariant (s : CollectorState) (l : Line)
    (h1 : s.timestamps.length = s.ppg1_data.length)
    (h2 : s.ppg1_data.length = s.ppg2_data.length) :
    ((collectStep s l).timestamps.length = (collectStep s l).ppg1_data.length
      ∧ (collectStep s l).ppg1_data.length = (collectStep s l).ppg2_data.length)
    ∧ (∀ fs t a b, l = Line.data fs → s.is_collecting = true →
        parse3 fs = some (t, a, b) →
        (collectStep s l).timestamps.length = s.timestamps.length + 1
        ∧ (collectStep s l).ppg1_data.length = s.ppg1_data.length + 1
        ∧ (collectStep s l).ppg2_data.length = s.ppg2_data.length + 1)
    ∧ (∀ fs, l = Line.data fs → parse3 fs = none → collectStep s l = s)
    ∧ ∀ (ls : LiveState) (gs : List FieldTok),
        ls.timestamps.length = ls.sensor1_values.length →
        ls.sensor1_values.length = ls.sensor2_values.length →
        ((readSerialStep ls gs).timestamps.length
            = (readSerialStep ls gs).sensor1_values.length
          ∧ (readSerialStep ls gs).sensor1_values.length
            = (readSerialStep ls gs).sensor2_values.length) := by
  refine ⟨?_, ?_, ?_, ?_⟩
  · cases l with
    | start => simp [collectStep]
    | stop => simp [collectStep, h1, h2]
    | data fs =>
      by_cases hc : s.is_collecting
      · cases hp : parse3 fs with
        | none => simp [collectStep, hc, hp, h1, h2]
        | some tab =>
          obtain ⟨t, a, b⟩ := tab
          simp [collectStep, hc, hp, h1, h2]
      · simp [collectStep, hc, h1, h2]
  · intro fs t a b hl hc hp
    subst hl
    simp [collectStep, hc, hp]
  · intro fs hl hp
    subst hl
    by_cases hc : s.is_collecting
    · simp [collectStep, hc, hp]
    · simp [collectStep, hc]
  · intro ls gs hl1 hl2
    cases hp : parse3 gs with
    | none => simp [readSerialStep, hp, hl1, hl2]
    | some tab =>
      obtain ⟨t, a, b⟩ := tab
      simp [readSerialStep, hp, hl1, hl2]

/-- Closed witness for C10: a well-formed sample line appends one element
to each buffer of a collecting state with empty buffers. -/
theorem buffer_length_invariant_witness :
    (collectStep (CollectorState.mk true [] [] [] [])
        (Line.data [FieldTok.num 5, FieldTok.num 6, FieldTok.num 7])).timestamps.length
      = ([] : List ℤ).length + 1
    ∧ (collectStep (CollectorState.mk true [] [] [] [])
        (Line.data [FieldTok.num 5, FieldTok.num 6, FieldTok.num 7])).ppg1_data.length
      = ([] : List ℤ).length + 1
    ∧ (collectStep (CollectorState.mk true [] [] [] [])
        (Line.data [FieldTok.num 5, FieldTok.num 6, FieldTok.num 7])).ppg2_data.length
      = ([] : List ℤ).length + 1 :=
  (buffer_length_invariant (CollectorState.mk true [] [] [] [])
      (Line.data [FieldTok.num 5, FieldTok.num 6, FieldTok.num 7]) rfl rfl).2.1
    [FieldTok.num 5, FieldTok.num 6, FieldTok.num 7] 5 6 7 rfl rfl rfl

end Arteri
